import Mathlib

/-!
Verification of `scan_images.go` (kwdowicz/image_sorter).

The program recursively scans a directory tree with `filepath.Walk`,
classifies regular files by extension against a fixed image-extension set,
accumulates a running total of byte sizes (an `int64`) and a per-directory
count map, then sorts the map descending by count and reports directories
with strictly more than 5 image files.

Shallow embedding: Go strings are lists of characters, the filesystem is an
inductive tree, `filepath.Walk`'s pre-order traversal with `SkipDir` and
error propagation is a state-passing recursion, the `int64` accumulator is
an `Int` reduced into the two's-complement range after every addition, and
every print statement is recorded as a line of structured output.
-/

set_option maxHeartbeats 1000000

namespace ImageSorter

/-- Go strings, as lists of characters. -/
abbrev Str := List Char

/-- Character data of a Lean string literal, used to write Go string
constants readably. -/
def str (s : String) : Str := s.data

/-- Embeds `strings.HasPrefix`: does the second list start the first? -/
def strStartsWith : Str → Str → Bool
  | _, [] => true
  | [], _ :: _ => false
  | c :: s, d :: t => c == d && strStartsWith s t

/-- Embeds `strings.Contains(s, sub)`: substring containment, matching at
some suffix position of `s`. -/
def strContains : Str → Str → Bool
  | [], sub => strStartsWith [] sub
  | c :: t, sub => strStartsWith (c :: t) sub || strContains t sub

/-- Embeds the character-level lowering performed by `strings.ToLower` on
ASCII input: uppercase ASCII letters shift down by 32, everything else is
unchanged.  (Go also lowers non-ASCII letters; no key of the extension set
contains one, so membership results agree.) -/
def goToLower (c : Char) : Char :=
  if 65 ≤ c.toNat ∧ c.toNat ≤ 90 then Char.ofNat (c.toNat + 32) else c

/-- Embeds `strings.ToLower` (character-wise). -/
def lowerStr (s : Str) : Str := s.map goToLower

/-- Helper for `goExt`: scans the reversed path, gathering characters of the
final path element until the final dot; stops empty at a separator or at the
start of the string. -/
def goExtAux : Str → Str → Str
  | [], _ => []
  | c :: rest, acc =>
    if c = '.' then '.' :: acc
    else if c = '/' then []
    else goExtAux rest (c :: acc)

/-- Embeds `filepath.Ext`: the suffix of the path beginning at the final dot
in the final slash-separated element, empty when that element has no dot. -/
def goExt (p : Str) : Str := goExtAux p.reverse []

/-- Helper for `dirname`: on a reversed path, drops characters up to and
including the first separator; `none` when the path has no separator. -/
def stripLastComponent : Str → Option Str
  | [] => none
  | c :: rest => if c = '/' then some rest else stripLastComponent rest

/-- Embeds `filepath.Dir` on the slash-separated paths the walk builds: all
but the last path element, `.` when there is no separator, `/` when the
last element sits directly under the root slash.  (`filepath.Dir` also runs
`Clean`; on the single-slash-joined paths produced here the two agree.) -/
def dirname (p : Str) : Str :=
  match stripLastComponent p.reverse with
  | none => ['.']
  | some [] => ['/']
  | some r => r.reverse

/-- Embeds `filepath.Join(d, name)` for a cleaned directory path and a
separator-free entry name. -/
def joinPath (d : Str) (n : Str) : Str := d ++ '/' :: n

/-- Keys of the `imageExtensions` map of scan_images.go (all 18 entries map
to `true`). -/
def imageExtensionsKeys : List Str :=
  [str ".jpg", str ".jpeg", str ".png", str ".gif", str ".bmp", str ".tiff",
   str ".svg", str ".webp", str ".heic", str ".heif", str ".raw", str ".cr2",
   str ".nef", str ".orf", str ".sr2", str ".arw", str ".dng", str ".rw2"]

/-- Embeds lookup in the Go map `imageExtensions`; a missing key yields the
zero value `false`. -/
def imageExtensions (s : Str) : Bool := imageExtensionsKeys.contains s

/-- Embeds the `ignoreDirs` slice of scan_images.go. -/
def ignoreDirs : List Str :=
  [str "Windows", str "Program Files", str "System Volume Information",
   str "$Recycle.Bin", str "Users", str "SmartPSS", str "Python312",
   str "ProgramData"]

/-- Embeds the ignore loop of the walk callback: some entry of `ignoreDirs`
is a substring of the path. -/
def isIgnoredDir (path : Str) : Bool :=
  ignoreDirs.any (fun d => strContains path d)

/-- Embeds the classification test of the walk callback:
`imageExtensions[strings.ToLower(filepath.Ext(path))]`. -/
def isImageFile (path : Str) : Bool := imageExtensions (lowerStr (goExt path))

/-- Reduction of an integer into the `int64` range, applied after every Go
`int64` addition (Go signed arithmetic wraps in two's complement). -/
def wrap64 (x : Int) : Int := (x + 2 ^ 63) % 2 ^ 64 - 2 ^ 63

/-- Model of a filesystem tree.  `file` carries the `int64` size reported by
`info.Size()`; `dir` lists its children in the order `filepath.Walk` visits
them (`readDirNames` sorts them lexically); `broken` is an entry whose
metadata read (`lstat`) fails with the given error message, modelling the
traversal I/O errors of the spec. -/
inductive FSEntry where
  | file (name : Str) (size : Int)
  | broken (name : Str) (msg : Str)
  | dir (name : Str) (children : List FSEntry)

/-- Entry name, as it appears to `readDirNames`. -/
def FSEntry.name : FSEntry → Str
  | .file n _ => n
  | .broken n _ => n
  | .dir n _ => n

/-- One line of standard output.  `totalKB`/`totalMB`/`totalGB` carry the
raw byte total whose fixed-two-decimal rendering is elided. -/
inductive OutLine where
  | usage
  | scanning (root : Str)
  | fileLine (path : Str) (size : Int)
  | errorLine (msg : Str)
  | totalBytes (n : Int)
  | totalKB (n : Int)
  | totalMB (n : Int)
  | totalGB (n : Int)
  | sortedHeader
  | dirLine (path : Str) (count : Nat)
  | acceptedDir (path : Str)
deriving DecidableEq

/-- Mutable state of `scanDirectory`: the `totalSize` accumulator, the
`dirFileCount` map (an association list with distinct keys, in insertion
order), and the lines printed so far. -/
structure ScanState where
  totalSize : Int
  dirFileCount : List (Str × Nat)
  output : List OutLine
deriving DecidableEq

/-- Result of the walk callback: `nil`, `filepath.SkipDir`, or an error. -/
inductive WalkRes where
  | ok
  | skipDir
  | fail (e : Str)
deriving DecidableEq

/-- Embeds `dirFileCount[dir]++` on the association-list map: increment the
entry of `k`, creating it at 1 when absent. -/
def bump (m : List (Str × Nat)) (k : Str) : List (Str × Nat) :=
  match m with
  | [] => [(k, 1)]
  | (k', v) :: rest => if k' = k then (k', v + 1) :: rest else (k', v) :: bump rest k

/-- Embeds the walk callback (the closure passed to `filepath.Walk` in
`scanDirectory`): propagate an incoming error; return `SkipDir` for a
directory whose path contains an ignore-list entry; for a non-directory
whose lowered extension is a key of `imageExtensions`, print the file line,
add its size to the total (with `int64` wrap-around), and increment the
count of its containing directory. -/
def scanStep (path : Str) (isDir : Bool) (size : Int) (err : Option Str)
    (st : ScanState) : WalkRes × ScanState :=
  match err with
  | some e => (.fail e, st)
  | none =>
    if isDir && isIgnoredDir path then (.skipDir, st)
    else if !isDir && isImageFile path then
      (.ok, { totalSize := wrap64 (st.totalSize + size),
              dirFileCount := bump st.dirFileCount (dirname path),
              output := st.output ++ [.fileLine path size] })
    else (.ok, st)

mutual

/-- Embeds the internal `walk` of `path/filepath`: call the callback on the
entry (pre-order), and for a directory whose callback returned `nil`,
process the children in order.  `walk` is only reached for entries whose
metadata read succeeded, but the `broken` case is included (behaving as the
callback invocation with the error does) to keep the function total. -/
def walk (path : Str) (e : FSEntry) (st : ScanState) : WalkRes × ScanState :=
  match e with
  | .file _ size => scanStep path false size none st
  | .broken _ msg => scanStep path false 0 (some msg) st
  | .dir _ cs =>
    match scanStep path true 0 none st with
    | (.ok, st') => walkChildren path cs st'
    | r => r

/-- Embeds the child loop of the internal `walk`: a child whose metadata
read fails feeds its error to the callback and aborts unless the callback
answered `SkipDir`; otherwise recurse, aborting on an error, skipping the
subtree (and continuing with the siblings) when a directory's callback
returned `SkipDir`, and propagating `SkipDir` returned for a file. -/
def walkChildren (path : Str) (cs : List FSEntry) (st : ScanState) :
    WalkRes × ScanState :=
  match cs with
  | [] => (.ok, st)
  | c :: rest =>
    match c with
    | .broken n msg =>
      match scanStep (joinPath path n) false 0 (some msg) st with
      | (.fail e, st') => (.fail e, st')
      | (_, st') => walkChildren path rest st'
    | .file n sz =>
      match walk (joinPath path n) (.file n sz) st with
      | (.fail e, st') => (.fail e, st')
      | (.skipDir, st') => (.skipDir, st')
      | (.ok, st') => walkChildren path rest st'
    | .dir n ccs =>
      match walk (joinPath path n) (.dir n ccs) st with
      | (.fail e, st') => (.fail e, st')
      | (_, st') => walkChildren path rest st'

end

/-- Embeds `filepath.Walk(root, fn)`: a failing metadata read of the root
itself goes to the callback as an error; otherwise the internal walk runs;
`SkipDir` surfacing at the top becomes a `nil` error. -/
def filepathWalk (root : Str) (e : FSEntry) (st : ScanState) :
    Option Str × ScanState :=
  match walk root e st with
  | (.fail er, st') => (some er, st')
  | (_, st') => (none, st')

/-- Return value of `scanDirectory` — the `int64` total, the count map and
the error — together with the lines it printed. -/
structure ScanResult where
  totalSize : Int
  dirFileCount : List (Str × Nat)
  err : Option Str
  out : List OutLine
deriving DecidableEq

/-- Embeds `scanDirectory(root)` run on the tree `e` found at `root`. -/
def scanDirectory (root : Str) (e : FSEntry) : ScanResult :=
  match filepathWalk root e ⟨0, [], []⟩ with
  | (err, st) => ⟨st.totalSize, st.dirFileCount, err, st.output⟩

mutual

/-- Specification-side characterization of the files the scan counts: the
full paths and sizes of the files reachable from the entry at `path` whose
extension (lowered) is a recognized image extension and that do not lie
under a directory whose path matches the ignore list. -/
def matchedFiles (path : Str) (e : FSEntry) : List (Str × Int) :=
  match e with
  | .file _ size => if isImageFile path then [(path, size)] else []
  | .broken _ _ => []
  | .dir _ cs => if isIgnoredDir path then [] else matchedFilesList path cs

/-- List version of `matchedFiles`, over the children of a directory. -/
def matchedFilesList (path : Str) (cs : List FSEntry) : List (Str × Int) :=
  match cs with
  | [] => []
  | c :: rest =>
    matchedFiles (joinPath path c.name) c ++ matchedFilesList path rest

end

mutual

/-- Does the tree contain an entry whose metadata read fails? -/
def hasBroken : FSEntry → Bool
  | .file _ _ => false
  | .broken _ _ => true
  | .dir _ cs => hasBrokenList cs

/-- List version of `hasBroken`. -/
def hasBrokenList : List FSEntry → Bool
  | [] => false
  | c :: rest => hasBroken c || hasBrokenList rest

end

mutual

/-- Does the traversal starting at `path` reach an entry whose metadata
read fails (i.e. one not hidden inside an ignored directory)? -/
def reachesBroken (path : Str) : FSEntry → Bool
  | .file _ _ => false
  | .broken _ _ => true
  | .dir _ cs => !isIgnoredDir path && reachesBrokenList path cs

/-- List version of `reachesBroken`. -/
def reachesBrokenList (path : Str) : List FSEntry → Bool
  | [] => false
  | c :: rest =>
    reachesBroken (joinPath path c.name) c || reachesBrokenList path rest

end

/-- Iterated `bump`: the map after counting each directory of `ks` once. -/
def bumpAll (m : List (Str × Nat)) (ks : List Str) : List (Str × Nat) :=
  ks.foldl bump m

/-- Embeds Go map read `m[k]`: the stored count, or the zero value 0 when
the key is absent. -/
def lookupCount : List (Str × Nat) → Str → Nat
  | [], _ => 0
  | (k', v) :: rest, k => if k' = k then v else lookupCount rest k

/-- Iterated `int64` accumulation: fold the sizes into the accumulator with
wrap-around after every addition, as `totalSize += fileSize` does. -/
def wrapFold (a : Int) (l : List Int) : Int :=
  l.foldl (fun x s => wrap64 (x + s)) a

/-- Insertion of one (directory, count) pair into a list already sorted by
descending count, before the first strictly smaller count. -/
def insertDesc (x : Str × Nat) : List (Str × Nat) → List (Str × Nat)
  | [] => [x]
  | y :: ys => if x.2 > y.2 then x :: y :: ys else y :: insertDesc x ys

/-- Embeds the `sort.Slice` call of `printDirectoryFileCounts`: reorder the
(directory, count) pairs so counts are descending.  `sort.Slice` is not
stable and the order of equal counts is unspecified; this deterministic
insertion sort realizes one admissible outcome. -/
def sortDesc (l : List (Str × Nat)) : List (Str × Nat) :=
  l.foldr insertDesc []

/-- Embeds the print-and-collect loop of `printDirectoryFileCounts`: walk
the sorted pairs and, for each count strictly above 5, print the directory
line and append the path to `acceptedDirs`. -/
def acceptLoop : List (Str × Nat) → List Str × List OutLine
  | [] => ([], [])
  | dc :: rest =>
    match acceptLoop rest with
    | (as, ls) =>
      if 5 < dc.2 then (dc.1 :: as, .dirLine dc.1 dc.2 :: ls) else (as, ls)

/-- Embeds `printDirectoryFileCounts`, taking the (directory, count) pairs
of the map in the (unspecified) order Go's `range` yields them: returns the
`acceptedDirs` slice and the lines printed (header, then one line per
directory with count > 5, in descending-count order). -/
def printDirectoryFileCounts (m : List (Str × Nat)) : List Str × List OutLine :=
  match acceptLoop (sortDesc m) with
  | (as, ls) => (as, .sortedHeader :: ls)

/-- Embeds `main`, run with argument vector `args` (including the program
name) against the tree `fs` found at the root path `args[1]`: with fewer
than two arguments print the usage line and return; otherwise scan, and on
error print the error line and return; on success print the four total
lines, the directory report, and the accepted directories. -/
def mainRun (args : List Str) (fs : FSEntry) : List OutLine :=
  if args.length < 2 then [.usage]
  else
    let root := args.getD 1 []
    let r := scanDirectory root fs
    OutLine.scanning root :: r.out ++
      match r.err with
      | some e => [.errorLine e]
      | none =>
        match printDirectoryFileCounts r.dirFileCount with
        | (accepted, lines) =>
          [.totalBytes r.totalSize, .totalKB r.totalSize,
           .totalMB r.totalSize, .totalGB r.totalSize]
          ++ lines ++ accepted.map .acceptedDir

/-- Is this output line part of the size summary or the directory report
(everything `main` prints after a successful scan)? -/
def isSummaryLine : OutLine → Bool
  | .totalBytes _ => true
  | .totalKB _ => true
  | .totalMB _ => true
  | .totalGB _ => true
  | .sortedHeader => true
  | .dirLine _ _ => true
  | .acceptedDir _ => true
  | _ => false

/-- Concrete tree of the specification's worked scenario: `a.JPG` (10 bytes)
and `b.txt` (5 bytes) at the root, `c.png` (20 bytes) in `sub`. -/
def c1Tree : FSEntry :=
  .dir (str "r")
    [.file (str "a.JPG") 10, .file (str "b.txt") 5,
     .dir (str "sub") [.file (str "c.png") 20]]

/-- Concrete tree with two image files in the root and one in a subdirectory. -/
def c3Tree : FSEntry :=
  .dir (str "r")
    [.file (str "a.jpg") 1, .file (str "b.png") 2,
     .dir (str "s") [.file (str "c.gif") 3]]

/-- Concrete tree containing an entry whose metadata read fails. -/
def c6Tree : FSEntry :=
  .dir (str "r")
    [.file (str "ok.png") 4, .broken (str "bad") (str "eacces")]

/-- Concrete tree with two directories holding six image files each. -/
def c9Tree : FSEntry :=
  .dir (str "r")
    [.dir (str "a")
      [.file (str "p1.jpg") 1, .file (str "p2.jpg") 1, .file (str "p3.jpg") 1,
       .file (str "p4.jpg") 1, .file (str "p5.jpg") 1, .file (str "p6.jpg") 1],
     .dir (str "b")
      [.file (str "q1.jpg") 1, .file (str "q2.jpg") 1, .file (str "q3.jpg") 1,
       .file (str "q4.jpg") 1, .file (str "q5.jpg") 1, .file (str "q6.jpg") 1]]

/-- Concrete tree with two image files directly in the root. -/
def c10Tree : FSEntry :=
  .dir (str "r") [.file (str "a.jpg") 2, .file (str "b.jpg") 3]

/-- Callback result the walk reports for the entry at `path`: directories
matching the ignore list answer `SkipDir`, a broken entry surfaces its
error, everything else proceeds. -/
def walkResOf (path : Str) : FSEntry → WalkRes
  | .file _ _ => .ok
  | .broken _ msg => .fail msg
  | .dir _ _ => if isIgnoredDir path then .skipDir else .ok

/-- Effect of processing a batch of matched files on the scan state: sizes
folded into the total with `int64` wrap-around, containing directories
counted, file lines appended. -/
def applyMatched (st : ScanState) (l : List (Str × Int)) : ScanState :=
  ⟨wrapFold st.totalSize (l.map Prod.snd),
   bumpAll st.dirFileCount (l.map fun p => dirname p.1),
   st.output ++ l.map fun p => .fileLine p.1 p.2⟩

theorem applyMatched_nil (st : ScanState) : applyMatched st [] = st := by
  cases st with
  | mk t d o => simp [applyMatched, wrapFold, bumpAll]

theorem applyMatched_append (st : ScanState) (l₁ l₂ : List (Str × Int)) :
    applyMatched st (l₁ ++ l₂) = applyMatched (applyMatched st l₁) l₂ := by
  simp [applyMatched, wrapFold, bumpAll, List.foldl_append]

mutual

/-- Characterization of the walk on an error-free tree: it never fails, it
answers `SkipDir` exactly on ignored directories, and its whole effect on
the state is the processing of the matched files. -/
theorem walk_spec (path : Str) (e : FSEntry) (st : ScanState)
    (h : hasBroken e = false) :
    walk path e st = (walkResOf path e, applyMatched st (matchedFiles path e)) :=
  match e with
  | .file n size => by
    cases hIm : isImageFile path <;>
      simp [walk, scanStep, matchedFiles, walkResOf, applyMatched,
        applyMatched_nil, wrapFold, bumpAll, hIm]
  | .broken n msg => by simp [hasBroken] at h
  | .dir n cs => by
    have hcs : hasBrokenList cs = false := by simpa [hasBroken] using h
    have hrec := walkList_spec path cs st hcs
    cases hIg : isIgnoredDir path with
    | true =>
      simp [walk, scanStep, matchedFiles, walkResOf, applyMatched_nil, hIg]
    | false =>
      simp [walk, scanStep, matchedFiles, walkResOf, hIg, hrec]

/-- Characterization of the child loop on error-free children. -/
theorem walkList_spec (path : Str) (cs : List FSEntry) (st : ScanState)
    (h : hasBrokenList cs = false) :
    walkChildren path cs st =
      (.ok, applyMatched st (matchedFilesList path cs)) :=
  match cs with
  | [] => by simp [walkChildren, matchedFilesList, applyMatched_nil]
  | c :: rest => by
    have hc : hasBroken c = false := by
      have := h; simp [hasBrokenList] at this; exact this.1
    have hrest : hasBrokenList rest = false := by
      have := h; simp [hasBrokenList] at this; exact this.2
    match c with
    | .broken n msg => simp [hasBroken] at hc
    | .file n sz =>
      have hw := walk_spec (joinPath path n) (.file n sz) st hc
      have hr := walkList_spec path rest
        (applyMatched st (matchedFiles (joinPath path n) (.file n sz))) hrest
      simp [walkChildren, hw, walkResOf, hr, matchedFilesList, FSEntry.name,
        applyMatched_append]
    | .dir n ccs =>
      have hw := walk_spec (joinPath path n) (.dir n ccs) st hc
      have hr := walkList_spec path rest
        (applyMatched st (matchedFiles (joinPath path n) (.dir n ccs))) hrest
      cases hIg : isIgnoredDir (joinPath path n) <;>
        simp [walkChildren, hw, walkResOf, hIg, hr, matchedFilesList,
          FSEntry.name, applyMatched_append]

end

/-- Characterization of `scanDirectory` on an error-free tree: no error,
and the result assembled from the matched files. -/
theorem scanDirectory_spec (root : Str) (e : FSEntry)
    (h : hasBroken e = false) :
    scanDirectory root e =
      ⟨wrapFold 0 ((matchedFiles root e).map Prod.snd),
       bumpAll [] ((matchedFiles root e).map fun p => dirname p.1),
       none,
       (matchedFiles root e).map fun p => .fileLine p.1 p.2⟩ := by
  have hw := walk_spec root e ⟨0, [], []⟩ h
  match e with
  | .file n size =>
    simp [scanDirectory, filepathWalk, hw, walkResOf, applyMatched]
  | .broken n msg => simp [hasBroken] at h
  | .dir n cs =>
    cases hIg : isIgnoredDir root <;>
      simp [scanDirectory, filepathWalk, hw, walkResOf, hIg, applyMatched]

theorem wrap64_eq_self (x : Int) (h1 : -(2 ^ 63) ≤ x) (h2 : x < 2 ^ 63) :
    wrap64 x = x := by
  unfold wrap64
  omega

theorem wrapFold_eq_sum (l : List Int) (a : Int) (ha : 0 ≤ a)
    (hl : ∀ s ∈ l, 0 ≤ s) (hs : a + l.sum < 2 ^ 63) :
    wrapFold a l = a + l.sum := by
  induction l generalizing a with
  | nil => simp [wrapFold]
  | cons s t ih =>
    have hs0 : 0 ≤ s := hl s (by simp)
    have ht : ∀ x ∈ t, 0 ≤ x := fun x hx => hl x (by simp [hx])
    have htsum : 0 ≤ t.sum := List.sum_nonneg ht
    have hcons : a + (s :: t).sum = a + s + t.sum := by
      simp [List.sum_cons]; ring
    have hw : wrap64 (a + s) = a + s :=
      wrap64_eq_self _ (by linarith) (by rw [hcons] at hs; linarith)
    have hstep : wrapFold a (s :: t) = wrapFold (wrap64 (a + s)) t := rfl
    rw [hstep, hw, ih (a + s) (by linarith) ht (by rw [hcons] at hs; linarith)]
    rw [hcons]

theorem lookupCount_bump_self (m : List (Str × Nat)) (k : Str) :
    lookupCount (bump m k) k = lookupCount m k + 1 := by
  induction m with
  | nil => simp [bump, lookupCount]
  | cons q rest ih =>
    match q with
    | (k', v) =>
      by_cases hk : k' = k <;> simp [bump, lookupCount, hk, ih]

theorem lookupCount_bump_ne (m : List (Str × Nat)) (k d : Str) (h : d ≠ k) :
    lookupCount (bump m k) d = lookupCount m d := by
  induction m with
  | nil => simp [bump, lookupCount, Ne.symm h]
  | cons q rest ih =>
    match q with
    | (k', v) =>
      by_cases hk : k' = k <;> by_cases hd : k' = d <;>
        simp_all [bump, lookupCount]

theorem lookupCount_bumpAll (ks : List Str) (m : List (Str × Nat)) (k : Str) :
    lookupCount (bumpAll m ks) k = lookupCount m k + ks.count k := by
  induction ks generalizing m with
  | nil => simp [bumpAll]
  | cons j t ih =>
    have hstep : bumpAll m (j :: t) = bumpAll (bump m j) t := rfl
    rw [hstep, ih]
    by_cases hj : j = k
    · rw [hj, lookupCount_bump_self]
      simp [List.count_cons]
      omega
    · rw [lookupCount_bump_ne m j k (fun hh => hj hh.symm)]
      simp [List.count_cons, hj]

theorem bump_mem (m : List (Str × Nat)) (k : Str) (q : Str × Nat)
    (h : q ∈ bump m k) : q ∈ m ∨ (q.1 = k ∧ 1 ≤ q.2) := by
  induction m with
  | nil =>
    simp [bump] at h
    right
    simp [h]
  | cons p rest ih =>
    match p with
    | (k', v) =>
      by_cases hk : k' = k
      · simp [bump, hk] at h
        rcases h with h | h
        · right; simp [h]
        · left; simp [h]
      · simp [bump, hk] at h
        rcases h with h | h
        · left; simp [h]
        · rcases ih h with h' | h'
          · left; simp [h']
          · right; exact h'

theorem bumpAll_mem (ks : List Str) (m : List (Str × Nat)) (q : Str × Nat)
    (h : q ∈ bumpAll m ks) : q ∈ m ∨ (q.1 ∈ ks ∧ 1 ≤ q.2) := by
  induction ks generalizing m with
  | nil => left; simpa [bumpAll] using h
  | cons j t ih =>
    have hstep : bumpAll m (j :: t) = bumpAll (bump m j) t := rfl
    rw [hstep] at h
    rcases ih (bump m j) h with h' | h'
    · rcases bump_mem m j q h' with h'' | h''
      · left; exact h''
      · right; exact ⟨by simp [h''.1], h''.2⟩
    · right; exact ⟨by simp [h'.1], h'.2⟩

theorem lookupCount_of_mem_nodup (m : List (Str × Nat)) (d : Str) (c : Nat)
    (hnd : (m.map Prod.fst).Nodup) (h : (d, c) ∈ m) : lookupCount m d = c := by
  induction m with
  | nil => simp at h
  | cons p rest ih =>
    match p with
    | (k', v) =>
      rw [List.map_cons, List.nodup_cons] at hnd
      rcases hnd with ⟨hnotin, hnd'⟩
      rcases List.mem_cons.mp h with h' | h'
      · rcases Prod.mk.injEq .. ▸ h' with ⟨hd, hc⟩
        simp [lookupCount, hd.symm, hc]
      · have hk : k' ≠ d := by
          intro he
          exact hnotin (he ▸ List.mem_map.mpr ⟨(d, c), h', rfl⟩)
        simp [lookupCount, hk]
        exact ih hnd' h'

theorem mem_of_lookupCount_pos (m : List (Str × Nat)) (d : Str)
    (h : 0 < lookupCount m d) : (d, lookupCount m d) ∈ m := by
  induction m with
  | nil => simp [lookupCount] at h
  | cons p rest ih =>
    match p with
    | (k', v) =>
      by_cases hk : k' = d
      · simp [lookupCount, hk]
      · simp [lookupCount, hk] at h ⊢
        right
        exact ih h

theorem insertDesc_perm (x : Str × Nat) (l : List (Str × Nat)) :
    (insertDesc x l).Perm (x :: l) := by
  induction l with
  | nil => simp [insertDesc]
  | cons y ys ih =>
    by_cases hcmp : x.2 > y.2
    · simp [insertDesc, hcmp]
    · simp only [insertDesc, if_neg hcmp]
      exact (ih.cons y).trans (List.Perm.swap x y ys)

theorem sortDesc_perm (l : List (Str × Nat)) : (sortDesc l).Perm l := by
  induction l with
  | nil => simp [sortDesc]
  | cons x xs ih =>
    have hstep : sortDesc (x :: xs) = insertDesc x (sortDesc xs) := rfl
    rw [hstep]
    exact (insertDesc_perm x (sortDesc xs)).trans (ih.cons x)

theorem insertDesc_sorted (x : Str × Nat) (l : List (Str × Nat))
    (h : l.Pairwise (fun a b => b.2 ≤ a.2)) :
    (insertDesc x l).Pairwise (fun a b => b.2 ≤ a.2) := by
  induction l with
  | nil => simp [insertDesc]
  | cons y ys ih =>
    rcases List.pairwise_cons.mp h with ⟨hy, hys⟩
    by_cases hcmp : x.2 > y.2
    · simp only [insertDesc, if_pos hcmp]
      refine List.pairwise_cons.mpr ⟨?_, h⟩
      intro z hz
      rcases List.mem_cons.mp hz with hz | hz
      · subst hz
        omega
      · have := hy z hz
        omega
    · simp only [insertDesc, if_neg hcmp]
      refine List.pairwise_cons.mpr ⟨?_, ih hys⟩
      intro z hz
      have hz' : z ∈ x :: ys := (insertDesc_perm x ys).mem_iff.mp hz
      rcases List.mem_cons.mp hz' with hz' | hz'
      · subst hz'
        omega
      · exact hy z hz'

theorem sortDesc_sorted (l : List (Str × Nat)) :
    (sortDesc l).Pairwise (fun a b => b.2 ≤ a.2) := by
  induction l with
  | nil => simp [sortDesc]
  | cons x xs ih => exact insertDesc_sorted x (sortDesc xs) ih

theorem acceptLoop_fst (l : List (Str × Nat)) :
    (acceptLoop l).1 = (l.filter (fun dc => decide (5 < dc.2))).map Prod.fst := by
  induction l with
  | nil => simp [acceptLoop]
  | cons dc rest ih =>
    by_cases hc : 5 < dc.2 <;>
      simp [acceptLoop, hc, ih, List.filter_cons]

theorem printDirectoryFileCounts_fst (m : List (Str × Nat)) :
    (printDirectoryFileCounts m).1
      = ((sortDesc m).filter (fun dc => decide (5 < dc.2))).map Prod.fst := by
  have h : printDirectoryFileCounts m
      = ((acceptLoop (sortDesc m)).1, .sortedHeader :: (acceptLoop (sortDesc m)).2) := by
    unfold printDirectoryFileCounts
    rcases hq : acceptLoop (sortDesc m) with ⟨a, b⟩
    simp [hq]
  rw [h, acceptLoop_fst]

theorem char_toNat_ofNat (n : Nat) (h : n < 55296) : (Char.ofNat n).toNat = n := by
  have hv : n.isValidChar := Or.inl h
  unfold Char.ofNat
  rw [dif_pos hv]
  unfold Char.ofNatAux Char.toNat
  simp [UInt32.toNat, UInt32.ofNatTruncate, UInt32.ofNat']

theorem char_toNat_inj (a b : Char) (h : a.toNat = b.toNat) : a = b := by
  apply Char.ext
  cases a
  cases b
  simp [Char.toNat, UInt32.toNat] at h
  exact congrArg UInt32.mk (BitVec.eq_of_toNat_eq h)

theorem goToLower_toNat (c : Char) :
    (goToLower c).toNat
      = if 65 ≤ c.toNat ∧ c.toNat ≤ 90 then c.toNat + 32 else c.toNat := by
  unfold goToLower
  by_cases h : 65 ≤ c.toNat ∧ c.toNat ≤ 90
  · rw [if_pos h, if_pos h, char_toNat_ofNat _ (by omega)]
  · rw [if_neg h, if_neg h]

theorem goToLower_eq_small (c d : Char) (hd : d.toNat < 65) :
    goToLower c = d ↔ c = d := by
  constructor
  · intro h
    have ht := congrArg Char.toNat h
    rw [goToLower_toNat] at ht
    by_cases hc : 65 ≤ c.toNat ∧ c.toNat ≤ 90
    · rw [if_pos hc] at ht
      omega
    · rw [if_neg hc] at ht
      exact char_toNat_inj _ _ ht
  · intro h
    subst h
    apply char_toNat_inj
    rw [goToLower_toNat, if_neg (by omega)]

theorem goToLower_eq_dot (c : Char) : goToLower c = '.' ↔ c = '.' :=
  goToLower_eq_small c '.' (by decide)

theorem goToLower_eq_slash (c : Char) : goToLower c = '/' ↔ c = '/' :=
  goToLower_eq_small c '/' (by decide)

theorem goToLower_idem (c : Char) : goToLower (goToLower c) = goToLower c := by
  apply char_toNat_inj
  simp only [goToLower_toNat]
  split_ifs <;> omega

theorem goExtAux_map_lower (rp acc : Str) :
    goExtAux (rp.map goToLower) (lowerStr acc) = lowerStr (goExtAux rp acc) := by
  induction rp generalizing acc with
  | nil => simp [goExtAux, lowerStr]
  | cons c rest ih =>
    by_cases hdot : c = '.'
    · subst hdot
      have hld : goToLower '.' = '.' := by decide
      simp [goExtAux, lowerStr, hld]
    · by_cases hsl : c = '/'
      · subst hsl
        simp [goExtAux, lowerStr, goToLower_eq_slash,
          (goToLower_eq_dot '/').not.mpr (by decide)]
      · have h1 : ¬ goToLower c = '.' := fun h => hdot ((goToLower_eq_dot c).mp h)
        have h2 : ¬ goToLower c = '/' := fun h => hsl ((goToLower_eq_slash c).mp h)
        have hstep : lowerStr (c :: acc) = goToLower c :: lowerStr acc := rfl
        simp only [List.map_cons, goExtAux, if_neg h1, if_neg h2, if_neg hdot,
          if_neg hsl, ← hstep, ih]

theorem goExt_lower (p : Str) : goExt (lowerStr p) = lowerStr (goExt p) := by
  unfold goExt
  have hrev : (lowerStr p).reverse = p.reverse.map goToLower := by
    simp [lowerStr]
  rw [hrev]
  have h := goExtAux_map_lower p.reverse []
  simpa [lowerStr] using h

theorem lowerStr_idem (s : Str) : lowerStr (lowerStr s) = lowerStr s := by
  simp only [lowerStr, List.map_map]
  exact List.map_congr_left fun a _ => goToLower_idem a

theorem isImageFile_lower (p : Str) : isImageFile (lowerStr p) = isImageFile p := by
  unfold isImageFile
  rw [goExt_lower, lowerStr_idem]

theorem goExtAux_of_no_dot (rp : Str) (acc : Str) (h : '.' ∉ rp) :
    goExtAux rp acc = [] := by
  induction rp generalizing acc with
  | nil => simp [goExtAux]
  | cons c rest ih =>
    simp only [List.mem_cons, not_or] at h
    have hc : ¬ c = '.' := fun hh => h.1 hh.symm
    by_cases hs : c = '/' <;>
      simp [goExtAux, hc, hs, ih _ h.2]

theorem goExt_of_no_dot (p : Str) (h : '.' ∉ p) : goExt p = [] :=
  goExtAux_of_no_dot p.reverse [] (by simpa using h)

theorem isImageFile_of_no_dot (p : Str) (h : '.' ∉ p) : isImageFile p = false := by
  unfold isImageFile
  rw [goExt_of_no_dot p h]
  decide

theorem walk_file_fst (path n : Str) (sz : Int) (st : ScanState) :
    ∃ st₂, walk path (.file n sz) st = (.ok, st₂) := by
  by_cases hIm : isImageFile path
  · exact ⟨⟨wrap64 (st.totalSize + sz), bump st.dirFileCount (dirname path),
      st.output ++ [.fileLine path sz]⟩, by simp [walk, scanStep, hIm]⟩
  · exact ⟨st, by simp [walk, scanStep, hIm]⟩

mutual

/-- The walk only ever prints file lines: whatever happens, the output grows
by a batch of `fileLine`s. -/
theorem walk_out (path : Str) (e : FSEntry) (st : ScanState) :
    ∃ L, (walk path e st).2.output = st.output ++ L
      ∧ ∀ l ∈ L, ∃ q s, l = OutLine.fileLine q s :=
  match e with
  | .file n size => by
    by_cases hIm : isImageFile path
    · exact ⟨[.fileLine path size], by simp [walk, scanStep, hIm], by simp⟩
    · exact ⟨[], by simp [walk, scanStep, hIm], by simp⟩
  | .broken n msg => ⟨[], by simp [walk, scanStep], by simp⟩
  | .dir n cs => by
    by_cases hIg : isIgnoredDir path
    · exact ⟨[], by simp [walk, scanStep, hIg], by simp⟩
    · have h := walkChildren_out path cs st
      simpa [walk, scanStep, hIg] using h

/-- List version of `walk_out`. -/
theorem walkChildren_out (path : Str) (cs : List FSEntry) (st : ScanState) :
    ∃ L, (walkChildren path cs st).2.output = st.output ++ L
      ∧ ∀ l ∈ L, ∃ q s, l = OutLine.fileLine q s :=
  match cs with
  | [] => ⟨[], by simp [walkChildren], by simp⟩
  | .broken n msg :: rest => ⟨[], by simp [walkChildren, scanStep], by simp⟩
  | .file n sz :: rest => by
    rcases hw : walk (joinPath path n) (.file n sz) st with ⟨r, st₂⟩
    obtain ⟨L1, h1, h1f⟩ := walk_out (joinPath path n) (.file n sz) st
    rw [hw] at h1
    have h1' : st₂.output = st.output ++ L1 := h1
    cases r with
    | fail e => exact ⟨L1, by simp [walkChildren, hw, h1'], h1f⟩
    | skipDir => exact ⟨L1, by simp [walkChildren, hw, h1'], h1f⟩
    | ok =>
      obtain ⟨L2, h2, h2f⟩ := walkChildren_out path rest st₂
      refine ⟨L1 ++ L2, ?_, ?_⟩
      · simp only [walkChildren, hw]
        rw [h2, h1', List.append_assoc]
      · intro l hl
        rcases List.mem_append.mp hl with hl | hl
        · exact h1f l hl
        · exact h2f l hl
  | .dir n ccs :: rest => by
    rcases hw : walk (joinPath path n) (.dir n ccs) st with ⟨r, st₂⟩
    obtain ⟨L1, h1, h1f⟩ := walk_out (joinPath path n) (.dir n ccs) st
    rw [hw] at h1
    have h1' : st₂.output = st.output ++ L1 := h1
    cases r with
    | fail e => exact ⟨L1, by simp [walkChildren, hw, h1'], h1f⟩
    | skipDir =>
      obtain ⟨L2, h2, h2f⟩ := walkChildren_out path rest st₂
      refine ⟨L1 ++ L2, ?_, ?_⟩
      · simp only [walkChildren, hw]
        rw [h2, h1', List.append_assoc]
      · intro l hl
        rcases List.mem_append.mp hl with hl | hl
        · exact h1f l hl
        · exact h2f l hl
    | ok =>
      obtain ⟨L2, h2, h2f⟩ := walkChildren_out path rest st₂
      refine ⟨L1 ++ L2, ?_, ?_⟩
      · simp only [walkChildren, hw]
        rw [h2, h1', List.append_assoc]
      · intro l hl
        rcases List.mem_append.mp hl with hl | hl
        · exact h1f l hl
        · exact h2f l hl

end

mutual

/-- The walk returns an error exactly when the traversal reaches an entry
whose metadata read fails. -/
theorem walk_fail_iff (path : Str) (e : FSEntry) (st : ScanState) :
    (∃ m st', walk path e st = (.fail m, st')) ↔ reachesBroken path e = true :=
  match e with
  | .file n size => by
    by_cases hIm : isImageFile path <;>
      simp [walk, scanStep, hIm, reachesBroken]
  | .broken n msg => by
    simp [walk, scanStep, reachesBroken]
  | .dir n cs => by
    by_cases hIg : isIgnoredDir path
    · simp [walk, scanStep, hIg, reachesBroken]
    · have h := walkChildren_fail_iff path cs st
      simpa [walk, scanStep, hIg, reachesBroken] using h

/-- List version of `walk_fail_iff`. -/
theorem walkChildren_fail_iff (path : Str) (cs : List FSEntry) (st : ScanState) :
    (∃ m st', walkChildren path cs st = (.fail m, st'))
      ↔ reachesBrokenList path cs = true :=
  match cs with
  | [] => by simp [walkChildren, reachesBrokenList]
  | .broken n msg :: rest => by
    simp [walkChildren, scanStep, reachesBrokenList, reachesBroken, FSEntry.name]
  | .file n sz :: rest => by
    obtain ⟨st₂, hw⟩ := walk_file_fst (joinPath path n) n sz st
    have h := walkChildren_fail_iff path rest st₂
    simp only [walkChildren, hw]
    rw [h]
    simp [reachesBrokenList, reachesBroken, FSEntry.name]
  | .dir n ccs :: rest => by
    rcases hw : walk (joinPath path n) (.dir n ccs) st with ⟨r, st₂⟩
    have hiff := walk_fail_iff (joinPath path n) (.dir n ccs) st
    rw [hw] at hiff
    cases r with
    | fail m =>
      have hrb : reachesBroken (joinPath path n) (.dir n ccs) = true :=
        hiff.mp ⟨m, st₂, rfl⟩
      simp [walkChildren, hw, reachesBrokenList, FSEntry.name, hrb]
    | ok =>
      have hne : ¬ ∃ m st', ((WalkRes.ok, st₂) : WalkRes × ScanState)
          = (.fail m, st') := by
        rintro ⟨m, st', hh⟩
        simp at hh
      have hrb : reachesBroken (joinPath path n) (.dir n ccs) = false := by
        cases hx : reachesBroken (joinPath path n) (.dir n ccs) with
        | true => exact absurd (hiff.mpr hx) hne
        | false => rfl
      have h := walkChildren_fail_iff path rest st₂
      simp only [walkChildren, hw]
      rw [h]
      simp [reachesBrokenList, FSEntry.name, hrb]
    | skipDir =>
      have hne : ¬ ∃ m st', ((WalkRes.skipDir, st₂) : WalkRes × ScanState)
          = (.fail m, st') := by
        rintro ⟨m, st', hh⟩
        simp at hh
      have hrb : reachesBroken (joinPath path n) (.dir n ccs) = false := by
        cases hx : reachesBroken (joinPath path n) (.dir n ccs) with
        | true => exact absurd (hiff.mpr hx) hne
        | false => rfl
      have h := walkChildren_fail_iff path rest st₂
      simp only [walkChildren, hw]
      rw [h]
      simp [reachesBrokenList, FSEntry.name, hrb]

end

theorem scanDirectory_out_eq (root : Str) (e : FSEntry) :
    (scanDirectory root e).out = (walk root e ⟨0, [], []⟩).2.output := by
  rcases hw : walk root e ⟨0, [], []⟩ with ⟨r, st⟩
  cases r <;> simp [scanDirectory, filepathWalk, hw]

theorem scanDirectory_out_fileLines (root : Str) (e : FSEntry) :
    ∀ l ∈ (scanDirectory root e).out, ∃ q s, l = OutLine.fileLine q s := by
  rw [scanDirectory_out_eq]
  obtain ⟨L, hL, hLf⟩ := walk_out root e ⟨0, [], []⟩
  rw [hL]
  intro l hl
  exact hLf l (by simpa using hl)

/-- C1: on an error-free tree whose (nonnegative) matched file sizes total
less than `2^63`, the total size returned by `scanDirectory` is exactly the
sum of the byte sizes of the files with a recognized extension
(case-insensitive) that lie under no ignored directory, and the scan
reports no error. -/
theorem claim_c1 (root : Str) (e : FSEntry) (h : hasBroken e = false)
    (hnn : ∀ p ∈ matchedFiles root e, 0 ≤ p.2)
    (hs : ((matchedFiles root e).map Prod.snd).sum < 2 ^ 63) :
    (scanDirectory root e).totalSize = ((matchedFiles root e).map Prod.snd).sum
      ∧ (scanDirectory root e).err = none := by
  rw [scanDirectory_spec root e h]
  refine ⟨?_, rfl⟩
  show wrapFold 0 ((matchedFiles root e).map Prod.snd) = _
  rw [wrapFold_eq_sum _ 0 le_rfl ?_ (by simpa using hs)]
  · simp
  · intro s hs'
    rcases List.mem_map.mp hs' with ⟨p, hp, rfl⟩
    exact hnn p hp

/-- Witness for C1 on the specification's worked scenario tree. -/
theorem claim_c1_witness :
    (scanDirectory (str "r") c1Tree).totalSize
        = ((matchedFiles (str "r") c1Tree).map Prod.snd).sum
      ∧ (scanDirectory (str "r") c1Tree).err = none :=
  claim_c1 (str "r") c1Tree (by decide) (by decide) (by decide)

/-- C2: for a map with distinct keys, the list `printDirectoryFileCounts`
returns contains exactly the directories whose count is strictly greater
than 5 (so none with count at most 5), in descending order of count. -/
theorem claim_c2 (m : List (Str × Nat)) (hnd : (m.map Prod.fst).Nodup) :
    (∀ d, d ∈ (printDirectoryFileCounts m).1 ↔ 5 < lookupCount m d)
    ∧ (printDirectoryFileCounts m).1.Pairwise
        (fun a b => lookupCount m b ≤ lookupCount m a) := by
  have hfst := printDirectoryFileCounts_fst m
  have hperm := sortDesc_perm m
  constructor
  · intro d
    rw [hfst]
    constructor
    · intro hd
      rcases List.mem_map.mp hd with ⟨dc, hdc, rfl⟩
      rcases dc with ⟨d, c⟩
      rcases List.mem_filter.mp hdc with ⟨hmem, hcond⟩
      have hcond' : 5 < c := by simpa using hcond
      have hmem' : (d, c) ∈ m := hperm.mem_iff.mp hmem
      have hl : lookupCount m d = c := lookupCount_of_mem_nodup m d c hnd hmem'
      rw [hl]
      exact hcond'
    · intro hd
      have hpos : 0 < lookupCount m d := by omega
      have hmem := mem_of_lookupCount_pos m d hpos
      have hmemS : (d, lookupCount m d) ∈ sortDesc m := hperm.mem_iff.mpr hmem
      exact List.mem_map.mpr
        ⟨(d, lookupCount m d),
         List.mem_filter.mpr ⟨hmemS, by simpa using hd⟩, rfl⟩
  · rw [hfst]
    have hfil : ((sortDesc m).filter fun dc => decide (5 < dc.2)).Pairwise
        (fun a b => b.2 ≤ a.2) := (sortDesc_sorted m).filter _
    rw [List.pairwise_map]
    refine hfil.imp_of_mem ?_
    intro a b ha hb hab
    have ha' : (a.1, a.2) ∈ m := by
      rw [Prod.mk.eta]
      exact hperm.mem_iff.mp (List.mem_filter.mp ha).1
    have hb' : (b.1, b.2) ∈ m := by
      rw [Prod.mk.eta]
      exact hperm.mem_iff.mp (List.mem_filter.mp hb).1
    rw [lookupCount_of_mem_nodup m a.1 a.2 hnd ha',
      lookupCount_of_mem_nodup m b.1 b.2 hnd hb']
    exact hab

/-- Witness for C2 on a concrete three-entry map. -/
theorem claim_c2_witness :
    (str "a" ∈ (printDirectoryFileCounts
        [(str "a", 7), (str "b", 3), (str "c", 9)]).1
      ↔ 5 < lookupCount [(str "a", 7), (str "b", 3), (str "c", 9)] (str "a"))
    ∧ (printDirectoryFileCounts
        [(str "a", 7), (str "b", 3), (str "c", 9)]).1.Pairwise
        (fun a b => lookupCount [(str "a", 7), (str "b", 3), (str "c", 9)] b
          ≤ lookupCount [(str "a", 7), (str "b", 3), (str "c", 9)] a) :=
  ⟨(claim_c2 [(str "a", 7), (str "b", 3), (str "c", 9)] (by decide)).1 (str "a"),
   (claim_c2 [(str "a", 7), (str "b", 3), (str "c", 9)] (by decide)).2⟩

/-- C3: on an error-free tree, the count stored for any directory `D` is
the number of matched files whose full path `filepath.Dir`-splits to
exactly `D` — not a recursive subtree total. -/
theorem claim_c3 (root : Str) (e : FSEntry) (D : Str)
    (h : hasBroken e = false) :
    lookupCount (scanDirectory root e).dirFileCount D
      = ((matchedFiles root e).map fun p => dirname p.1).count D := by
  rw [scanDirectory_spec root e h]
  show lookupCount (bumpAll [] _) D = _
  rw [lookupCount_bumpAll]
  simp [lookupCount]

/-- Witness for C3: the root of the concrete tree counts only its two
direct image children, not the one in the subdirectory. -/
theorem claim_c3_witness :
    lookupCount (scanDirectory (str "r") c3Tree).dirFileCount (str "r")
      = ((matchedFiles (str "r") c3Tree).map fun p => dirname p.1).count
          (str "r") :=
  claim_c3 (str "r") c3Tree (str "r") (by decide)

/-- C4: a directory whose full path contains an ignore-list entry is
skipped whole: the walk touches nothing in the state (no size, no counts,
no printed lines), and no file beneath it is matched. -/
theorem claim_c4 (path n : Str) (cs : List FSEntry) (st : ScanState)
    (h : isIgnoredDir path = true) :
    walk path (.dir n cs) st = (.skipDir, st)
      ∧ matchedFiles path (.dir n cs) = [] := by
  constructor
  · simp [walk, scanStep, h]
  · simp [matchedFiles, h]

/-- Witness for C4 on a directory under `Windows` holding an image file. -/
theorem claim_c4_witness :
    walk (str "/x/Windows/pics")
        (.dir (str "pics") [.file (str "a.jpg") 5]) ⟨0, [], []⟩
      = (.skipDir, (⟨0, [], []⟩ : ScanState))
    ∧ matchedFiles (str "/x/Windows/pics")
        (.dir (str "pics") [.file (str "a.jpg") 5]) = [] :=
  claim_c4 (str "/x/Windows/pics") (str "pics") [.file (str "a.jpg") 5]
    ⟨0, [], []⟩ (by decide)

/-- C5: classification is case-insensitive — lowering the path first never
changes the verdict, and `.JPG` matches exactly as `.jpg` does — the empty
string is not a key of the extension set, and a path with no dot (hence no
extension) never matches. -/
theorem claim_c5 :
    (∀ p : Str, isImageFile (lowerStr p) = isImageFile p)
    ∧ isImageFile (str "photo.JPG") = isImageFile (str "photo.jpg")
    ∧ imageExtensions [] = false
    ∧ ∀ p : Str, '.' ∉ p → isImageFile p = false :=
  ⟨isImageFile_lower, by decide, by decide, isImageFile_of_no_dot⟩

/-- Witness for C5 at concrete paths. -/
theorem claim_c5_witness :
    isImageFile (lowerStr (str "DSC.PNG")) = isImageFile (str "DSC.PNG")
    ∧ isImageFile (str "README") = false :=
  ⟨claim_c5.1 (str "DSC.PNG"), claim_c5.2.2.2 (str "README") (by decide)⟩

/-- C6: whenever the traversal reaches an entry whose read fails, the scan
aborts with that error (`scanDirectory` reports it to the caller); `main`
then prints only the scanning line, the file lines already produced, and
the error line — never any size-summary or directory-report line. -/
theorem claim_c6 :
    (∀ (root : Str) (e : FSEntry), reachesBroken root e = true
      → (scanDirectory root e).err.isSome = true)
    ∧ ∀ (args : List Str) (fs : FSEntry) (er : Str), 2 ≤ args.length
        → (scanDirectory (args.getD 1 []) fs).err = some er
        → mainRun args fs
            = .scanning (args.getD 1 [])
              :: ((scanDirectory (args.getD 1 []) fs).out ++ [.errorLine er])
          ∧ ∀ l ∈ mainRun args fs, isSummaryLine l = false := by
  constructor
  · intro root e hr
    obtain ⟨m, st', hw⟩ := (walk_fail_iff root e ⟨0, [], []⟩).mpr hr
    simp [scanDirectory, filepathWalk, hw]
  · intro args fs er hlen herr
    have hlt : ¬ args.length < 2 := by omega
    have herr' := herr
    rw [List.getD_eq_getElem?_getD] at herr'
    have heq : mainRun args fs
        = .scanning (args.getD 1 [])
          :: ((scanDirectory (args.getD 1 []) fs).out ++ [.errorLine er]) := by
      simp [mainRun, hlt, herr']
    refine ⟨heq, ?_⟩
    rw [heq]
    intro l hl
    rcases List.mem_cons.mp hl with hl | hl
    · subst hl
      rfl
    rcases List.mem_append.mp hl with hl | hl
    · obtain ⟨q, s, rfl⟩ := scanDirectory_out_fileLines _ _ l hl
      rfl
    · have hl' : l = .errorLine er := by simpa using hl
      subst hl'
      rfl

/-- Witness for C6 on a tree whose second entry fails to read. -/
theorem claim_c6_witness :
    (scanDirectory (str "r") c6Tree).err.isSome = true
    ∧ mainRun [str "prog", str "r"] c6Tree
        = .scanning (str "r")
          :: ((scanDirectory (str "r") c6Tree).out
            ++ [.errorLine (str "eacces")])
      ∧ ∀ l ∈ mainRun [str "prog", str "r"] c6Tree, isSummaryLine l = false :=
  ⟨claim_c6.1 (str "r") c6Tree (by decide),
   claim_c6.2 [str "prog", str "r"] c6Tree (str "eacces") (by decide)
     (by decide)⟩

/-- C7: with fewer than one user-supplied argument (argument vector shorter
than two), `main` prints only the usage line — no traversal output at all. -/
theorem claim_c7 (args : List Str) (fs : FSEntry) (h : args.length < 2) :
    mainRun args fs = [.usage] := by
  simp [mainRun, h]

/-- Witness for C7 with a bare program name. -/
theorem claim_c7_witness :
    mainRun [str "prog"] (.file (str "a.jpg") 1) = [.usage] :=
  claim_c7 [str "prog"] (.file (str "a.jpg") 1) (by decide)

/-- C8: a root path containing the literal substring `Users` — standalone
path segment or not — makes the scan skip the entire tree: zero total,
empty map, no error, nothing printed. -/
theorem claim_c8 (root n : Str) (cs : List FSEntry)
    (h : strContains root (str "Users") = true) :
    scanDirectory root (.dir n cs) = ⟨0, [], none, []⟩ := by
  have hmem : str "Users" ∈ ignoreDirs := by decide
  have hIg : isIgnoredDir root = true := by
    unfold isIgnoredDir
    rw [List.any_eq_true]
    exact ⟨str "Users", hmem, h⟩
  simp [scanDirectory, filepathWalk, walk, scanStep, hIg]

/-- Witness for C8 on a root where `Users` is not a path segment. -/
theorem claim_c8_witness :
    scanDirectory (str "/home/MyUsers_backup")
        (.dir (str "MyUsers_backup") [.file (str "x.png") 9])
      = ⟨0, [], none, []⟩ :=
  claim_c8 (str "/home/MyUsers_backup") (str "MyUsers_backup")
    [.file (str "x.png") 9] (by decide)

/-- C9 counterexample: scanning this concrete tree yields two directories
with count 6; the two orders in which Go's randomized map iteration can
feed them to `printDirectoryFileCounts` are permutations of the same map,
yet return different accepted lists — so two runs over the unchanged tree
need not produce identical lists. -/
theorem claim_c9_counterexample :
    (scanDirectory (str "r") c9Tree).dirFileCount
        = [(str "r/a", 6), (str "r/b", 6)]
    ∧ ([(str "r/a", 6), (str "r/b", 6)] : List (Str × Nat)).Perm
        [(str "r/b", 6), (str "r/a", 6)]
    ∧ (printDirectoryFileCounts [(str "r/a", 6), (str "r/b", 6)]).1
        ≠ (printDirectoryFileCounts [(str "r/b", 6), (str "r/a", 6)]).1 := by
  refine ⟨by decide, List.Perm.swap _ _ _, by decide⟩

/-- C9 (amended): two runs of the scan over an unchanged tree agree on the
total, the counts, and the set of accepted directories: whatever orders the
map iteration feeds to reporting, the accepted lists are permutations of
each other (identical up to the unspecified order of equal counts). -/
theorem claim_c9_amended (root : Str) (e : FSEntry) (m₁ m₂ : List (Str × Nat))
    (h₁ : m₁.Perm (scanDirectory root e).dirFileCount)
    (h₂ : m₂.Perm (scanDirectory root e).dirFileCount) :
    (printDirectoryFileCounts m₁).1.Perm (printDirectoryFileCounts m₂).1 := by
  have hp : m₁.Perm m₂ := h₁.trans h₂.symm
  rw [printDirectoryFileCounts_fst, printDirectoryFileCounts_fst]
  have hs : (sortDesc m₁).Perm (sortDesc m₂) :=
    (sortDesc_perm m₁).trans (hp.trans (sortDesc_perm m₂).symm)
  exact (hs.filter _).map _

/-- Witness for the amended C9 on the two iteration orders of the
counterexample tree's map. -/
theorem claim_c9_witness :
    (printDirectoryFileCounts [(str "r/a", 6), (str "r/b", 6)]).1.Perm
      (printDirectoryFileCounts [(str "r/b", 6), (str "r/a", 6)]).1 :=
  claim_c9_amended (str "r") c9Tree
    [(str "r/a", 6), (str "r/b", 6)] [(str "r/b", 6), (str "r/a", 6)]
    (by decide) (by decide)

/-- C10: on an error-free tree, every key of the produced map carries a
count of at least 1 and is the `filepath.Dir` of some matched file — a
directory without matched files never appears (so nothing with count 0
reaches the sort). -/
theorem claim_c10 (root : Str) (e : FSEntry) (h : hasBroken e = false) :
    ∀ q ∈ (scanDirectory root e).dirFileCount,
      1 ≤ q.2 ∧ q.1 ∈ (matchedFiles root e).map fun p => dirname p.1 := by
  rw [scanDirectory_spec root e h]
  intro q hq
  have hq' : q ∈ bumpAll []
      ((matchedFiles root e).map fun p => dirname p.1) := hq
  rcases bumpAll_mem _ _ _ hq' with h' | h'
  · simp at h'
  · exact ⟨h'.2, h'.1⟩

/-- Witness for C10 at the single map entry of a concrete two-file tree. -/
theorem claim_c10_witness :
    1 ≤ ((str "r", 2) : Str × Nat).2
    ∧ ((str "r", 2) : Str × Nat).1
        ∈ (matchedFiles (str "r") c10Tree).map fun p => dirname p.1 :=
  claim_c10 (str "r") c10Tree (by decide) (str "r", 2) (by decide)

end ImageSorter


